import Mathlib

/-!
Verification of `program_admin` (`src/program_admin/util.py` and the sync
components described by the design document). Python values are embedded
shallowly: 32-byte public keys become `Nat` (with `0` playing the role of
`PublicKey(0)`, the null link), Python `dict`s become ordered association
lists with unique keys and first-match lookup, Python `bytes` become
`List Nat`, and fallible code returns `Except`/`Option`.
-/

namespace ProgramAdmin

structure MappingAccount where
  public_key : Nat
  next_mapping_account_key : Nat
deriving DecidableEq, Repr

def buildPreviousKeys (accounts : List MappingAccount) : Nat → Option Nat :=
  accounts.foldl
    (fun m a => fun k =>
      if k = a.next_mapping_account_key then some a.public_key else m k)
    (fun _ => none)

def findLastKey (accounts : List MappingAccount) : Option Nat :=
  accounts.foldl
    (fun l a => if a.next_mapping_account_key = 0 then some a.public_key else l)
    none

def walkPrevious (previous_keys : Nat → Option Nat) :
    Nat → Nat → List Nat → List Nat
  | 0, _, sorted_keys => sorted_keys
  | fuel + 1, current, sorted_keys =>
    let sorted_keys' := current :: sorted_keys
    match previous_keys current with
    | some prev => walkPrevious previous_keys fuel prev sorted_keys'
    | none => walkPrevious previous_keys fuel current sorted_keys'

def sort_mapping_account_keys (accounts : List MappingAccount) :
    Except String (List Nat) :=
  if accounts.isEmpty then .ok []
  else
    match findLastKey accounts with
    | none => .error "The linked list has no end"
    | some last_key =>
      .ok (walkPrevious (buildPreviousKeys accounts) accounts.length last_key [])

def chainAccounts : List Nat → List MappingAccount
  | [] => []
  | [k] => [⟨k, 0⟩]
  | k :: k' :: rest => ⟨k, k'⟩ :: chainAccounts (k' :: rest)


/-- The fold computing `last_key` keeps the key of the last zero-next
account seen, i.e. the first zero-next account of the reversed list. -/
theorem foldl_last_eq (accounts : List MappingAccount) (init : Option Nat) :
    accounts.foldl
        (fun l a => if a.next_mapping_account_key = 0 then some a.public_key else l)
        init
      = match accounts.reverse.find? (fun a => a.next_mapping_account_key == 0) with
        | some a => some a.public_key
        | none => init := by
  induction accounts generalizing init with
  | nil => rfl
  | cons b t ih =>
    rw [List.foldl_cons, ih, List.reverse_cons, List.find?_append]
    cases ht : t.reverse.find? (fun a => a.next_mapping_account_key == 0) with
    | some a => simp
    | none =>
      by_cases hb : b.next_mapping_account_key = 0
      · simp [List.find?, hb]
      · rw [List.find?, show (b.next_mapping_account_key == 0) = false from
          beq_eq_false_iff_ne.mpr hb]
        simp [hb]

/-- The fold building `previous_keys` realizes last-write-wins dict
semantics: looking up `k` finds the last account whose next key is `k`. -/
theorem foldl_prev_eq (accounts : List MappingAccount) (m : Nat → Option Nat) (k : Nat) :
    (accounts.foldl
        (fun m a => fun k' =>
          if k' = a.next_mapping_account_key then some a.public_key else m k')
        m) k
      = match accounts.reverse.find? (fun a => a.next_mapping_account_key == k) with
        | some a => some a.public_key
        | none => m k := by
  induction accounts generalizing m with
  | nil => rfl
  | cons b t ih =>
    rw [List.foldl_cons, ih, List.reverse_cons, List.find?_append]
    cases ht : t.reverse.find? (fun a => a.next_mapping_account_key == k) with
    | some a => simp
    | none =>
      by_cases hb : k = b.next_mapping_account_key
      · simp [List.find?, hb]
      · rw [List.find?, show (b.next_mapping_account_key == k) = false from
          beq_eq_false_iff_ne.mpr (Ne.symm hb)]
        simp [hb]

theorem findLastKey_eq (accounts : List MappingAccount) :
    findLastKey accounts
      = match accounts.reverse.find? (fun a => a.next_mapping_account_key == 0) with
        | some a => some a.public_key
        | none => none :=
  foldl_last_eq accounts none

theorem buildPreviousKeys_eq (accounts : List MappingAccount) (k : Nat) :
    buildPreviousKeys accounts k
      = match accounts.reverse.find? (fun a => a.next_mapping_account_key == k) with
        | some a => some a.public_key
        | none => none :=
  foldl_prev_eq accounts (fun _ => none) k

/-- `find?` returns the unique element satisfying the predicate. -/
theorem find?_eq_some_of_unique {p : MappingAccount → Bool} {a : MappingAccount} :
    ∀ {l : List MappingAccount}, a ∈ l → p a = true → (∀ b ∈ l, p b = true → b = a) →
      l.find? p = some a := by
  intro l
  induction l with
  | nil => intro h; cases h
  | cons b t ih =>
    intro hl hp hu
    by_cases hb : p b = true
    · rw [List.find?_cons_of_pos _ hb, hu b (List.mem_cons_self b t) hb]
    · rw [List.find?_cons_of_neg _ hb]
      have ha : a ∈ t := by
        cases List.mem_cons.mp hl with
        | inl h => exact absurd (h ▸ hp) hb
        | inr h => exact h
      exact ih ha hp (fun c hc hpc => hu c (List.mem_cons_of_mem _ hc) hpc)

theorem chainAccounts_length (ks : List Nat) :
    (chainAccounts ks).length = ks.length := by
  induction ks with
  | nil => rfl
  | cons k t ih =>
    cases t with
    | nil => rfl
    | cons k2 rest => simp only [chainAccounts, List.length_cons] at ih ⊢; omega

theorem mem_chainAccounts_next {a : MappingAccount} :
    ∀ {ks : List Nat}, a ∈ chainAccounts ks →
      a.next_mapping_account_key = 0 ∨ a.next_mapping_account_key ∈ ks.tail := by
  intro ks
  induction ks with
  | nil => intro h; cases h
  | cons k t ih =>
    cases t with
    | nil =>
      intro h
      rcases List.mem_singleton.mp h with rfl
      left; rfl
    | cons k2 rest =>
      intro h
      rcases List.mem_cons.mp h with rfl | h2
      · right; exact List.mem_cons_self k2 rest
      · rcases ih h2 with h0 | hmem
        · left; exact h0
        · right; exact List.mem_cons_of_mem _ hmem

theorem chainAccounts_tail_mem :
    ∀ {ks : List Nat} (h : ks ≠ []),
      (⟨ks.getLast h, 0⟩ : MappingAccount) ∈ chainAccounts ks := by
  intro ks
  induction ks with
  | nil => intro h; exact absurd rfl h
  | cons k t ih =>
    cases t with
    | nil => intro h; exact List.mem_singleton.mpr rfl
    | cons k2 rest =>
      intro h
      rw [List.getLast_cons (List.cons_ne_nil k2 rest)]
      exact List.mem_cons_of_mem _ (ih (List.cons_ne_nil k2 rest))

theorem chainAccounts_tail_unique :
    ∀ {ks : List Nat} (h : ks ≠ []), 0 ∉ ks →
      ∀ {a : MappingAccount}, a ∈ chainAccounts ks →
        a.next_mapping_account_key = 0 → a = ⟨ks.getLast h, 0⟩ := by
  intro ks
  induction ks with
  | nil => intro h; exact absurd rfl h
  | cons k t ih =>
    cases t with
    | nil =>
      intro h _ a ha h0
      rcases List.mem_singleton.mp ha with rfl
      rfl
    | cons k2 rest =>
      intro h hzero a ha h0
      rcases List.mem_cons.mp ha with rfl | h2
      · exfalso
        have hk2 : k2 = 0 := h0
        subst hk2
        exact hzero (List.mem_cons_of_mem _ (List.mem_cons_self 0 rest))
      · rw [List.getLast_cons (List.cons_ne_nil k2 rest)]
        exact ih (List.cons_ne_nil k2 rest)
          (fun hm => hzero (List.mem_cons_of_mem _ hm)) h2 h0

theorem chainAccounts_next_inj :
    ∀ {ks : List Nat}, ks.Nodup → 0 ∉ ks →
      ∀ {a : MappingAccount}, a ∈ chainAccounts ks →
      ∀ {b : MappingAccount}, b ∈ chainAccounts ks →
        a.next_mapping_account_key = b.next_mapping_account_key → a = b := by
  intro ks
  induction ks with
  | nil => intro _ _ a ha; cases ha
  | cons k t ih =>
    cases t with
    | nil =>
      intro _ _ a ha b hb _
      rcases List.mem_singleton.mp ha with rfl
      rcases List.mem_singleton.mp hb with rfl
      rfl
    | cons k2 rest =>
      intro hnodup hzero a ha b hb hnext
      have hk2zero : k2 ≠ 0 := by
        intro hk2
        exact hzero (List.mem_cons_of_mem _ (hk2 ▸ List.mem_cons_self k2 rest))
      have hk2rest : k2 ∉ rest := by
        have := (List.nodup_cons.mp hnodup).2
        exact (List.nodup_cons.mp this).1
      rcases List.mem_cons.mp ha with rfl | ha2
      · rcases List.mem_cons.mp hb with rfl | hb2
        · rfl
        · exfalso
          rcases mem_chainAccounts_next hb2 with h0 | hmem
          · exact hk2zero (by rw [← hnext] at h0; exact h0.symm ▸ rfl)
          · rw [← hnext] at hmem
            exact hk2rest hmem
      · rcases List.mem_cons.mp hb with rfl | hb2
        · exfalso
          rcases mem_chainAccounts_next ha2 with h0 | hmem
          · exact hk2zero (by rw [hnext] at h0; exact h0.symm ▸ rfl)
          · rw [hnext] at hmem
            exact hk2rest hmem
        · exact ih (List.nodup_cons.mp hnodup).2
            (fun hm => hzero (List.mem_cons_of_mem _ hm)) ha2 hb2 hnext

theorem chainAccounts_chain' :
    ∀ (ks : List Nat),
      List.Chain' (fun u v => (⟨u, v⟩ : MappingAccount) ∈ chainAccounts ks) ks := by
  intro ks
  induction ks with
  | nil => exact List.chain'_nil
  | cons k t ih =>
    cases t with
    | nil => exact List.chain'_singleton k
    | cons k2 rest =>
      rw [List.chain'_cons]
      constructor
      · exact List.mem_cons_self _ _
      · exact (ih : List.Chain' _ (k2 :: rest)).imp
          (fun u v hm => List.mem_cons_of_mem _ hm)

theorem walkPrevious_eq_of_chain (prev : Nat → Option Nat) (ys : List Nat) :
    ∀ (y : Nat) (acc : List Nat),
      List.Chain' (fun u v => prev v = some u) (ys ++ [y]) →
      walkPrevious prev (ys.length + 1) y acc = ys ++ y :: acc := by
  induction ys using List.reverseRecOn with
  | nil =>
    intro y acc _
    cases h : prev y <;> simp [walkPrevious, h]
  | append_singleton zs z ih =>
    intro y acc hchain
    rw [List.chain'_append] at hchain
    obtain ⟨h1, _, h3⟩ := hchain
    have hzy : prev y = some z := h3 z (by rw [List.getLast?_concat]; rfl) y rfl
    have hlen : (zs ++ [z]).length + 1 = (zs.length + 1) + 1 := by
      simp
    rw [hlen]
    show walkPrevious prev ((zs.length + 1) + 1) y acc = _
    rw [walkPrevious]
    simp only [hzy]
    rw [ih z (y :: acc) h1]
    simp


/-- C1 -/
theorem sort_mapping_account_keys_of_chain (ks : List Nat)
    (accounts : List MappingAccount)
    (hperm : accounts.Perm (chainAccounts ks))
    (hnodup : ks.Nodup) (hzero : 0 ∉ ks) :
    sort_mapping_account_keys accounts = .ok ks := by
  by_cases hks : ks = []
  · subst hks
    have : accounts = [] := List.Perm.eq_nil hperm
    subst this
    rfl
  · have hmem : ∀ a : MappingAccount, a ∈ accounts ↔ a ∈ chainAccounts ks :=
      fun a => hperm.mem_iff
    have hlen : accounts.length = ks.length := by
      rw [hperm.length_eq, chainAccounts_length]
    have hne : accounts ≠ [] := by
      intro h
      apply hks
      rw [h] at hlen
      exact List.length_eq_zero.mp hlen.symm
    -- the tail account
    have hlast : findLastKey accounts = some (ks.getLast hks) := by
      rw [findLastKey_eq]
      have hfind : accounts.reverse.find?
          (fun a => a.next_mapping_account_key == 0)
          = some ⟨ks.getLast hks, 0⟩ := by
        apply find?_eq_some_of_unique
        · rw [List.mem_reverse, hmem]
          exact chainAccounts_tail_mem hks
        · rfl
        · intro b hb hpb
          have hb' : b ∈ chainAccounts ks := (hmem b).mp (List.mem_reverse.mp hb)
          exact chainAccounts_tail_unique hks hzero hb' (by simpa using hpb)
      rw [hfind]
    -- the previous-keys dict follows the chain
    have hchain : List.Chain'
        (fun u v => buildPreviousKeys accounts v = some u) ks := by
      refine (chainAccounts_chain' ks).imp ?_
      intro u v huv
      rw [buildPreviousKeys_eq]
      have hfind : accounts.reverse.find?
          (fun a => a.next_mapping_account_key == v)
          = some ⟨u, v⟩ := by
        apply find?_eq_some_of_unique
        · rw [List.mem_reverse, hmem]
          exact huv
        · exact beq_self_eq_true v
        · intro b hb hpb
          have hb' : b ∈ chainAccounts ks := (hmem b).mp (List.mem_reverse.mp hb)
          exact chainAccounts_next_inj hnodup hzero hb' huv (by simpa using hpb)
      rw [hfind]
    -- run the walk
    rw [sort_mapping_account_keys, if_neg (by simpa using hne), hlast]
    have hdrop : ks.dropLast ++ [ks.getLast hks] = ks :=
      List.dropLast_append_getLast hks
    have hfuel : accounts.length = ks.dropLast.length + 1 := by
      rw [hlen, ← hdrop]
      simp
    rw [hfuel]
    show Except.ok (walkPrevious (buildPreviousKeys accounts)
        (ks.dropLast.length + 1) (ks.getLast hks) []) = Except.ok ks
    rw [walkPrevious_eq_of_chain (buildPreviousKeys accounts) ks.dropLast
      (ks.getLast hks) [] (by rw [hdrop]; exact hchain)]
    rw [show ks.dropLast ++ ks.getLast hks :: [] = ks from hdrop]


/-- C1 witness -/
theorem sort_mapping_account_keys_of_chain_witness :
    sort_mapping_account_keys [⟨3, 0⟩, ⟨1, 2⟩, ⟨2, 3⟩] = .ok [1, 2, 3] :=
  sort_mapping_account_keys_of_chain [1, 2, 3] [⟨3, 0⟩, ⟨1, 2⟩, ⟨2, 3⟩]
    (by decide) (by decide) (by decide)

/-- C9 -/
theorem sort_mapping_account_keys_empty :
    sort_mapping_account_keys [] = .ok [] := rfl

/-- C5 -/
theorem sort_mapping_account_keys_broken_list_pads :
    sort_mapping_account_keys [⟨1, 0⟩, ⟨2, 3⟩] = .ok [1, 1] := rfl

/-- C6 counterexample -/
theorem sort_mapping_account_keys_two_tails_no_error :
    sort_mapping_account_keys [⟨1, 0⟩, ⟨2, 0⟩] = .ok [2, 2] := rfl

/-- C6 amended -/
theorem sort_mapping_account_keys_no_end (accounts : List MappingAccount)
    (hne : accounts ≠ [])
    (h : ∀ a ∈ accounts, a.next_mapping_account_key ≠ 0) :
    sort_mapping_account_keys accounts = .error "The linked list has no end" := by
  rw [sort_mapping_account_keys, if_neg (by simpa using hne)]
  have hnone : findLastKey accounts = none := by
    rw [findLastKey_eq]
    have hfind : accounts.reverse.find?
        (fun a => a.next_mapping_account_key == 0) = none := by
      rw [List.find?_eq_none]
      intro a ha
      simpa using h a (List.mem_reverse.mp ha)
    rw [hfind]
  rw [hnone]

/-- C6 witness -/
theorem sort_mapping_account_keys_no_end_witness :
    sort_mapping_account_keys [⟨1, 2⟩] = .error "The linked list has no end" :=
  sort_mapping_account_keys_no_end [⟨1, 2⟩] (by decide) (by decide)

theorem walkPrevious_length (prev : Nat → Option Nat) :
    ∀ (fuel cur : Nat) (acc : List Nat),
      (walkPrevious prev fuel cur acc).length = fuel + acc.length := by
  intro fuel
  induction fuel with
  | zero => intro cur acc; simp [walkPrevious]
  | succ n ih =>
    intro cur acc
    rw [walkPrevious]
    cases h : prev cur with
    | some p =>
      simp only [h]
      rw [ih]
      simp only [List.length_cons]
      omega
    | none =>
      simp only [h]
      rw [ih]
      simp only [List.length_cons]
      omega

/-- C10 -/
theorem sort_mapping_account_keys_length (accounts : List MappingAccount)
    (h : ∃ a ∈ accounts, a.next_mapping_account_key = 0) :
    ∃ l, sort_mapping_account_keys accounts = .ok l ∧
      l.length = accounts.length := by
  obtain ⟨a, ha, ha0⟩ := h
  have hne : accounts ≠ [] := by rintro rfl; cases ha
  have hsome : ∃ k, findLastKey accounts = some k := by
    rw [findLastKey_eq]
    have hs : (accounts.reverse.find?
        (fun a => a.next_mapping_account_key == 0)).isSome := by
      rw [List.find?_isSome]
      exact ⟨a, List.mem_reverse.mpr ha, by simpa using ha0⟩
    obtain ⟨b, hb⟩ := Option.isSome_iff_exists.mp hs
    exact ⟨b.public_key, by rw [hb]⟩
  obtain ⟨k, hk⟩ := hsome
  refine ⟨walkPrevious (buildPreviousKeys accounts) accounts.length k [], ?_, ?_⟩
  · rw [sort_mapping_account_keys, if_neg (by simpa using hne), hk]
  · rw [walkPrevious_length]
    simp

/-- C10 witness -/
theorem sort_mapping_account_keys_length_witness :
    ∃ l, sort_mapping_account_keys [⟨5, 0⟩] = .ok l ∧ l.length = 1 :=
  sort_mapping_account_keys_length [⟨5, 0⟩] ⟨⟨5, 0⟩, by decide, rfl⟩



abbrev Network := String
abbrev Symbol := String
abbrev AccountType := String
abbrev Publisher := String

/-- `ReferencePermissions`: symbol → account-type → publishers, a Python
dict modelled as an ordered association list (dict keys are unique;
lookup takes the first binding). -/
abbrev ReferencePermissions := List (Symbol × List (AccountType × List Publisher))

/-- `ReferenceOverrides`: network → symbol → boolean. -/
abbrev ReferenceOverrides := List (Network × List (Symbol × Bool))

/-- `apply_overrides` from `src/program_admin/util.py`. -/
def apply_overrides (ref_permissions : ReferencePermissions)
    (ref_overrides : ReferenceOverrides) (network : Network) :
    ReferencePermissions :=
  let network_overrides := (ref_overrides.lookup network).getD []
  ref_permissions.map fun kv =>
    match network_overrides.lookup kv.1 with
    | some b => if b then kv else (kv.1, kv.2.map fun tv => (tv.1, []))
    | none => kv

/-- C2 -/
theorem apply_overrides_spec (perms : ReferencePermissions)
    (ov : ReferenceOverrides) (network : Network) :
    (ov.lookup network = none → apply_overrides perms ov network = perms) ∧
    (∀ i, i < perms.length →
      (((ov.lookup network).getD []).lookup (perms.getD i default).1 = some false →
        (apply_overrides perms ov network)[i]? =
          some ((perms.getD i default).1,
            (perms.getD i default).2.map fun tv => (tv.1, ([] : List Publisher)))) ∧
      (((ov.lookup network).getD []).lookup (perms.getD i default).1 ≠ some false →
        (apply_overrides perms ov network)[i]? = some (perms.getD i default))) := by
  constructor
  · intro hnet
    rw [apply_overrides]
    simp only [hnet, Option.getD_none]
    have : ∀ kv : Symbol × List (AccountType × List Publisher),
        (match ([] : List (Symbol × Bool)).lookup kv.1 with
         | some b => if b then kv else (kv.1, kv.2.map fun tv => (tv.1, []))
         | none => kv) = kv := fun kv => rfl
    simp only [this, List.map_id']
  · intro i hi
    have hget : perms[i]? = some (perms.getD i default) := by
      rw [List.getD_eq_getElem?_getD, List.getElem?_eq_getElem hi]
      rfl
    constructor
    · intro hov
      rw [apply_overrides]
      simp only [List.getElem?_map, hget, Option.map_some']
      rw [hov]
      rfl
    · intro hov
      rw [apply_overrides]
      simp only [List.getElem?_map, hget, Option.map_some']
      cases hcase : (((ov.lookup network).getD []).lookup (perms.getD i default).1) with
      | none => rfl
      | some b =>
        cases b with
        | false => exact absurd hcase hov
        | true => rfl


/-- C2 witness -/
theorem apply_overrides_spec_witness :
    (apply_overrides [("BTC/USD", [("price", ["pub1", "pub2"])])]
        [("mainnet", [("BTC/USD", false)])] "mainnet")[0]? =
      some ("BTC/USD", [("price", [])]) ∧
    apply_overrides [("BTC/USD", [("price", ["pub1", "pub2"])])]
        [("mainnet", [("BTC/USD", false)])] "devnet"
      = [("BTC/USD", [("price", ["pub1", "pub2"])])] :=
  ⟨((apply_overrides_spec [("BTC/USD", [("price", ["pub1", "pub2"])])]
      [("mainnet", [("BTC/USD", false)])] "mainnet").2 0 (by decide)).1 (by decide),
   (apply_overrides_spec [("BTC/USD", [("price", ["pub1", "pub2"])])]
      [("mainnet", [("BTC/USD", false)])] "devnet").1 (by decide)⟩

/-- A keypair, reduced to its public key (the only field
`get_actual_signers` reads). -/
structure Keypair where
  public_key : Nat
deriving DecidableEq, Repr

/-- An account reference inside an instruction (`AccountMeta`). -/
structure AccountMeta where
  pubkey : Nat
  is_signer : Bool
deriving DecidableEq, Repr

/-- A transaction instruction, reduced to its account list. -/
structure TransactionInstruction where
  keys : List AccountMeta
deriving DecidableEq, Repr

/-- A transaction, reduced to its instruction list. -/
structure Transaction where
  instructions : List TransactionInstruction
deriving DecidableEq, Repr

/-- `get_actual_signers` from `src/program_admin/util.py`: the loop that
appends each candidate signer whose public key appears as a signer account
in some instruction is a `filter` over the candidate list. -/
def get_actual_signers (signers : List Keypair) (transaction : Transaction) :
    List Keypair :=
  signers.filter fun signer =>
    (transaction.instructions.map fun instruction =>
      instruction.keys.any fun account =>
        signer.public_key == account.pubkey && account.is_signer).any id

/-- C3 -/
theorem get_actual_signers_spec (signers : List Keypair) (tx : Transaction) :
    (∀ kp : Keypair,
      kp ∈ get_actual_signers signers tx ↔
        kp ∈ signers ∧ ∃ instr ∈ tx.instructions, ∃ acct ∈ instr.keys,
          acct.pubkey = kp.public_key ∧ acct.is_signer = true) ∧
    (get_actual_signers signers tx).Sublist signers := by
  constructor
  · intro kp
    rw [get_actual_signers, List.mem_filter]
    constructor
    · rintro ⟨hmem, hcond⟩
      refine ⟨hmem, ?_⟩
      rw [List.any_eq_true] at hcond
      obtain ⟨b, hb, hbtrue⟩ := hcond
      rw [List.mem_map] at hb
      obtain ⟨instr, hinstr, rfl⟩ := hb
      simp only [id_eq, List.any_eq_true, Bool.and_eq_true, beq_iff_eq]
        at hbtrue
      obtain ⟨acct, hacct, heq, hsign⟩ := hbtrue
      exact ⟨instr, hinstr, acct, hacct, heq.symm, hsign⟩
    · rintro ⟨hmem, instr, hinstr, acct, hacct, heq, hsign⟩
      refine ⟨hmem, ?_⟩
      rw [List.any_eq_true]
      refine ⟨_, List.mem_map_of_mem _ hinstr, ?_⟩
      simp only [id_eq, List.any_eq_true, Bool.and_eq_true, beq_iff_eq]
      exact ⟨acct, hacct, heq.symm, hsign⟩
  · exact List.filter_sublist signers

/-- C3 witness -/
theorem get_actual_signers_spec_witness :
    Keypair.mk 1 ∈ get_actual_signers [⟨1⟩, ⟨2⟩]
      ⟨[⟨[⟨1, true⟩, ⟨2, false⟩]⟩]⟩ :=
  ((get_actual_signers_spec [⟨1⟩, ⟨2⟩] ⟨[⟨[⟨1, true⟩, ⟨2, false⟩]⟩]⟩).1 ⟨1⟩).mpr
    ⟨by decide, ⟨[⟨1, true⟩, ⟨2, false⟩]⟩, by decide, ⟨1, true⟩, by decide, rfl, rfl⟩


/-- A Python `str` modelled as its UTF-8 byte sequence (a list of byte
values); `encode_product_metadata` only ever reads the UTF-8 encoding of
its keys and values, so the embedding works on those byte sequences
directly. -/
abbrev ByteStr := List Nat

/-- Python `n.to_bytes(1, byteorder="little")`: the single byte `n`, or an
`OverflowError` (modelled as `none`) when `n` does not fit in one byte. -/
def to_bytes_one (n : Nat) : Option (List Nat) :=
  if n < 256 then some [n] else none

/-- `encode_product_metadata` from `src/program_admin/util.py`: serializes
each `(key, value)` entry of the ordered metadata mapping as
`len(key) ++ key ++ len(value) ++ value`, failing (Python raises
`OverflowError`) when a length does not fit in one byte. -/
def encode_product_metadata : List (ByteStr × ByteStr) → Option (List Nat)
  | [] => some []
  | (key, value) :: rest => do
    let key_len ← to_bytes_one key.length
    let value_len ← to_bytes_one value.length
    let tail ← encode_product_metadata rest
    return key_len ++ key ++ value_len ++ value ++ tail

/-- C7 -/
theorem encode_product_metadata_spec (data : List (ByteStr × ByteStr)) :
    ((∀ p ∈ data, p.1.length ≤ 255 ∧ p.2.length ≤ 255) →
      encode_product_metadata data =
        some (data.flatMap fun p =>
          p.1.length :: p.1 ++ p.2.length :: p.2)) ∧
    ((∃ p ∈ data, 255 < p.1.length ∨ 255 < p.2.length) →
      encode_product_metadata data = none) := by
  induction data with
  | nil =>
    refine ⟨fun _ => rfl, fun h => ?_⟩
    obtain ⟨p, hp, _⟩ := h
    cases hp
  | cons kv rest ih =>
    obtain ⟨k, v⟩ := kv
    constructor
    · intro h
      have hk : k.length ≤ 255 := (h (k, v) (List.mem_cons_self _ _)).1
      have hv : v.length ≤ 255 := (h (k, v) (List.mem_cons_self _ _)).2
      have htail := ih.1 fun p hp => h p (List.mem_cons_of_mem _ hp)
      rw [encode_product_metadata]
      rw [show to_bytes_one k.length = some [k.length] from
        if_pos (by omega)]
      rw [show to_bytes_one v.length = some [v.length] from
        if_pos (by omega)]
      rw [htail]
      rw [List.flatMap_cons]
      simp
    · intro h
      rcases h with ⟨p, hp, hbig⟩
      rcases List.mem_cons.mp hp with heq | hrest
      · subst heq
        rw [encode_product_metadata]
        rcases hbig with hb | hb
        · have hb' : 255 < k.length := hb
          rw [show to_bytes_one k.length = none from if_neg (by omega)]
          rfl
        · have hb' : 255 < v.length := hb
          cases hkl : to_bytes_one k.length with
          | none => rfl
          | some b =>
            rw [show to_bytes_one v.length = none from if_neg (by omega)]
            rfl
      · have htail := ih.2 ⟨p, hrest, hbig⟩
        rw [encode_product_metadata, htail]
        cases hkl : to_bytes_one k.length with
        | none => rfl
        | some b =>
          cases hvl : to_bytes_one v.length with
          | none => rfl
          | some c => rfl

/-- C7 witness -/
theorem encode_product_metadata_spec_witness :
    encode_product_metadata [([1, 2], [3])] = some [2, 1, 2, 1, 3] ∧
    encode_product_metadata [(List.replicate 256 7, [3])] = none :=
  ⟨(encode_product_metadata_spec [([1, 2], [3])]).1 (by decide),
   (encode_product_metadata_spec [(List.replicate 256 7, [3])]).2
     ⟨(List.replicate 256 7, [3]), List.mem_cons_self _ _,
       Or.inl (show (255 : Nat) < (List.replicate 256 7).length by
         rw [List.length_replicate]; omega)⟩⟩

/-- Modelled from the spec: the metadata decoder is not part of `src/`
(only the encoder is), so §4.4's record format is inverted here from the
spec's words: repeatedly read one length byte, that many key bytes, one
length byte, and that many value bytes. The fuel argument (instantiated
with the input length) only bounds the recursion; it never cuts a parse
short, since every record consumes at least one byte. -/
def decodeAux : Nat → List Nat → Option (List (ByteStr × ByteStr))
  | _, [] => some []
  | 0, _ :: _ => none
  | fuel + 1, key_len :: rest =>
    if key_len ≤ rest.length then
      match rest.drop key_len with
      | [] => none
      | value_len :: rest3 =>
        if value_len ≤ rest3.length then
          match decodeAux fuel (rest3.drop value_len) with
          | some entries =>
            some ((rest.take key_len, rest3.take value_len) :: entries)
          | none => none
        else none
    else none

/-- Modelled from the spec: entry point of the decoder. -/
def decode_product_metadata (l : List Nat) :
    Option (List (ByteStr × ByteStr)) :=
  decodeAux l.length l

theorem decodeAux_encode (data : List (ByteStr × ByteStr)) :
    ∀ (fuel : Nat) (enc : List Nat),
      encode_product_metadata data = some enc → enc.length ≤ fuel →
      decodeAux fuel enc = some data := by
  induction data with
  | nil =>
    intro fuel enc henc _
    rw [encode_product_metadata] at henc
    cases henc
    cases fuel <;> rfl
  | cons kv rest ih =>
    obtain ⟨k, v⟩ := kv
    intro fuel enc henc hfuel
    rw [encode_product_metadata] at henc
    cases hkl : to_bytes_one k.length with
    | none => rw [hkl] at henc; cases henc
    | some kl =>
      cases hvl : to_bytes_one v.length with
      | none => rw [hkl, hvl] at henc; cases henc
      | some vl =>
        cases htail : encode_product_metadata rest with
        | none => rw [hkl, hvl, htail] at henc; cases henc
        | some tail =>
          rw [hkl, hvl, htail] at henc
          have hkl' : kl = [k.length] := by
            by_cases hc : k.length < 256
            · rw [to_bytes_one, if_pos hc] at hkl
              cases hkl; rfl
            · rw [to_bytes_one, if_neg hc] at hkl
              cases hkl
          have hvl' : vl = [v.length] := by
            by_cases hc : v.length < 256
            · rw [to_bytes_one, if_pos hc] at hvl
              cases hvl; rfl
            · rw [to_bytes_one, if_neg hc] at hvl
              cases hvl
          subst hkl' hvl'
          have h2 : some (((([k.length] ++ k) ++ [v.length]) ++ v) ++ tail)
              = some enc := henc
          have henc' : enc = k.length :: (k ++ (v.length :: (v ++ tail))) := by
            injection h2 with h3
            rw [← h3]
            simp
          subst henc'
          have hlen : (k ++ (v.length :: (v ++ tail))).length
              = k.length + 1 + v.length + tail.length := by
            simp
            omega
          cases fuel with
          | zero => simp at hfuel
          | succ f =>
            rw [decodeAux, if_pos (by omega)]
            have hfuel' : tail.length ≤ f := by
              simp only [List.length_cons, List.length_append] at hfuel
              omega
            simp [List.drop_left, List.take_left, ih f tail htail hfuel']

/-- C8 -/
theorem decode_encode_product_metadata (data : List (ByteStr × ByteStr))
    (enc : List Nat) (henc : encode_product_metadata data = some enc) :
    decode_product_metadata enc = some data :=
  decodeAux_encode data enc.length enc henc (Nat.le_refl _)

/-- C8 witness -/
theorem decode_encode_product_metadata_witness :
    decode_product_metadata [2, 1, 2, 1, 3] = some [([1, 2], [3])] :=
  decode_encode_product_metadata [([1, 2], [3])] [2, 1, 2, 1, 3] (by rfl)




/-- Modelled from the spec: one publisher slot of a price account
(spec §3 `PriceComponent`). The reconciler itself is not under `src/`
(only its CLI caller is), so §4.3's sync algorithm is modelled here from
the spec's words. -/
structure PriceComponentState where
  publisher_key : Publisher
  is_enabled : Bool
deriving DecidableEq, Repr

/-- Modelled from the spec: the slice of the account graph hanging off one
product — its symbol, metadata, and the publisher components and
minimum-publishers threshold of its (single, §4.3) price account. -/
structure ProductState where
  symbol : Symbol
  metadata : List (String × String)
  components : List PriceComponentState
  minimum_publishers : Nat
deriving DecidableEq, Repr

/-- Modelled from the spec: the on-chain account graph snapshot (§3
`AccountGraph`): the number of mapping accounts in the linked list plus
the products addressable by symbol. -/
structure AccountGraph where
  mapping_count : Nat
  products : List ProductState
deriving DecidableEq, Repr

/-- Modelled from the spec: one reference product (§3
`ReferenceProduct`). -/
structure ReferenceProduct where
  symbol : Symbol
  metadata : List (String × String)
deriving DecidableEq, Repr

/-- Modelled from the spec: the effective reference configuration after
permission overrides: products, per-symbol allowed publishers, and
per-symbol minimum-publishers thresholds. -/
structure ReferenceConfig where
  products : List ReferenceProduct
  permissions : List (Symbol × List Publisher)
  minimum_publishers : List (Symbol × Nat)
deriving DecidableEq, Repr

/-- Modelled from the spec: the instruction plan alphabet of §4.3 —
link a new mapping account, create a product (with its add-to-mapping
instruction and fresh empty price account), update product metadata,
toggle one publisher of a product's price account, set that price
account's minimum-publishers threshold. -/
inductive Instruction where
  | create_mapping
  | create_product (symbol : Symbol) (metadata : List (String × String))
  | update_product (symbol : Symbol) (metadata : List (String × String))
  | toggle_publisher (symbol : Symbol) (publisher : Publisher) (status : Bool)
  | set_minimum_publishers (symbol : Symbol) (value : Nat)
deriving DecidableEq, Repr

def MAPPING_ACCOUNT_PRODUCT_LIMIT : Nat := 640

/-- Stable lookup of a product account by symbol (§4.3 phase 2). -/
def findProduct (g : AccountGraph) (s : Symbol) : Option ProductState :=
  g.products.find? fun p => p.symbol == s

/-- Modelled from the spec: §4.3 phase 1 — number of new mapping accounts
to link so that every reference product has a product slot (640 slots per
mapping account), with `generate-keys` enabled. -/
def neededMappings (g : AccountGraph) (r : ReferenceConfig) : Nat :=
  let new_count :=
    (r.products.filter fun rp => (findProduct g rp.symbol).isNone).length
  let required := g.products.length + new_count
  let capacity := MAPPING_ACCOUNT_PRODUCT_LIMIT * g.mapping_count
  if required ≤ capacity then 0
  else
    (required - capacity + (MAPPING_ACCOUNT_PRODUCT_LIMIT - 1)) /
      MAPPING_ACCOUNT_PRODUCT_LIMIT

/-- Modelled from the spec: §4.3 phase 1 (mapping-account phase). -/
def mappingPhase (g : AccountGraph) (r : ReferenceConfig) : List Instruction :=
  List.replicate (neededMappings g r) .create_mapping

/-- Modelled from the spec: §4.3 phase 2 for one reference product —
create the product when absent, else update its metadata only when the
byte-exact diff is non-empty (no-op diffs produce no instruction). -/
def productPhaseFor (g : AccountGraph) (rp : ReferenceProduct) :
    List Instruction :=
  match findProduct g rp.symbol with
  | none => [.create_product rp.symbol rp.metadata]
  | some p =>
    if p.metadata = rp.metadata then [] else [.update_product rp.symbol rp.metadata]

/-- Modelled from the spec: §4.3 phase 2 (product-account phase). -/
def productPhase (g : AccountGraph) (r : ReferenceConfig) : List Instruction :=
  r.products.flatMap (productPhaseFor g)

/-- The publisher keys of a component list. -/
def pubsOf (comps : List PriceComponentState) : List Publisher :=
  comps.map fun c => c.publisher_key

/-- The on-chain `is_enabled` flag of a publisher (`false` when the
publisher has no component). -/
def enabledFor (comps : List PriceComponentState) (pub : Publisher) : Bool :=
  ((comps.find? fun c => c.publisher_key == pub).map fun c => c.is_enabled).getD
    false

/-- Modelled from the spec: "every publisher present in either the
on-chain component list or the effective permission set" (§4.3 phase 3). -/
def publishersToSync (comps : List PriceComponentState)
    (allowed : List Publisher) : List Publisher :=
  pubsOf comps ++ allowed.filter fun pub => pub ∉ pubsOf comps

/-- Modelled from the spec: §4.3 phase 3 toggles for one price account —
desired flag is membership in the effective permission set, and a toggle
is emitted only when it differs from the on-chain flag. -/
def toggleList (comps : List PriceComponentState) (allowed : List Publisher) :
    List (Publisher × Bool) :=
  (publishersToSync comps allowed).filterMap fun pub =>
    let desired := decide (pub ∈ allowed)
    if enabledFor comps pub = desired then none else some (pub, desired)

/-- Modelled from the spec: §4.3 phase 3 for one reference product. A
product missing from the snapshot is created by phase 2 of the same plan
with a fresh price account (no components, zero minimum), which is what
the `getD` defaults reflect. -/
def pricePhaseFor (g : AccountGraph) (r : ReferenceConfig)
    (rp : ReferenceProduct) : List Instruction :=
  let comps := ((findProduct g rp.symbol).map fun p => p.components).getD []
  let current_min :=
    ((findProduct g rp.symbol).map fun p => p.minimum_publishers).getD 0
  let allowed := (r.permissions.lookup rp.symbol).getD []
  ((toggleList comps allowed).map fun t =>
      Instruction.toggle_publisher rp.symbol t.1 t.2) ++
    match r.minimum_publishers.lookup rp.symbol with
    | some n =>
      if n = current_min then [] else [.set_minimum_publishers rp.symbol n]
    | none => []

/-- Modelled from the spec: §4.3 phase 3 (price-account phase). -/
def pricePhase (g : AccountGraph) (r : ReferenceConfig) : List Instruction :=
  r.products.flatMap (pricePhaseFor g r)

/-- Modelled from the spec: the reconciler — a single ordered instruction
plan built from the three ordered phases of §4.3, all diffed against the
same immutable snapshot. -/
def reconcile (g : AccountGraph) (r : ReferenceConfig) : List Instruction :=
  mappingPhase g r ++ productPhase g r ++ pricePhase g r

/-- Modelled from the spec: effect of one toggle on a component list —
update the flag of an existing component, or add a component for a new
publisher. -/
def setComponent (comps : List PriceComponentState) (pub : Publisher)
    (status : Bool) : List PriceComponentState :=
  if pub ∈ pubsOf comps then
    comps.map fun c =>
      if c.publisher_key = pub then { c with is_enabled := status } else c
  else comps ++ [⟨pub, status⟩]

/-- Modelled from the spec: the on-chain semantics of one plan
instruction, applied to the graph snapshot. -/
def apply_instruction (g : AccountGraph) : Instruction → AccountGraph
  | .create_mapping => { g with mapping_count := g.mapping_count + 1 }
  | .create_product s md => { g with products := g.products ++ [⟨s, md, [], 0⟩] }
  | .update_product s md =>
    { g with
      products := g.products.map fun p =>
        if p.symbol = s then { p with metadata := md } else p }
  | .toggle_publisher s pub status =>
    { g with
      products := g.products.map fun p =>
        if p.symbol = s then
          { p with components := setComponent p.components pub status }
        else p }
  | .set_minimum_publishers s n =>
    { g with
      products := g.products.map fun p =>
        if p.symbol = s then { p with minimum_publishers := n } else p }

/-- Modelled from the spec: applying a whole instruction plan in order. -/
def apply_plan (g : AccountGraph) (plan : List Instruction) : AccountGraph :=
  plan.foldl apply_instruction g

/-- Folding a toggle list over a component list (the cumulative effect of
the plan's toggle instructions for one price account). -/
def applyToggles (comps : List PriceComponentState)
    (ts : List (Publisher × Bool)) : List PriceComponentState :=
  ts.foldl (fun cs t => setComponent cs t.1 t.2) comps

/-- `find?` commutes with a map that does not change the predicate. -/
theorem find?_map_pred {α : Type} (l : List α) (f : α → α) (p : α → Bool)
    (hf : ∀ a, p (f a) = p a) :
    (l.map f).find? p = (l.find? p).map f := by
  induction l with
  | nil => rfl
  | cons a t ih =>
    rw [List.map_cons]
    by_cases ha : p a = true
    · rw [List.find?_cons_of_pos _ (by rw [hf]; exact ha),
        List.find?_cons_of_pos _ ha]
      rfl
    · rw [List.find?_cons_of_neg _ (by rw [hf]; exact ha),
        List.find?_cons_of_neg _ ha, ih]

theorem mem_pubsOf_iff (cs : List PriceComponentState) (q : Publisher) :
    q ∈ pubsOf cs ↔ ∃ c ∈ cs, c.publisher_key = q := by
  rw [pubsOf, List.mem_map]

theorem pubsOf_setComponent_of_mem (cs : List PriceComponentState)
    (pub : Publisher) (b : Bool) (h : pub ∈ pubsOf cs) :
    pubsOf (setComponent cs pub b) = pubsOf cs := by
  rw [setComponent, if_pos h, pubsOf, List.map_map]
  apply List.map_congr_left
  intro c _
  by_cases hc : c.publisher_key = pub <;> simp [hc]

theorem mem_pubsOf_setComponent (cs : List PriceComponentState)
    (pub : Publisher) (b : Bool) (q : Publisher) :
    q ∈ pubsOf (setComponent cs pub b) ↔ q ∈ pubsOf cs ∨ q = pub := by
  by_cases hp : pub ∈ pubsOf cs
  · rw [pubsOf_setComponent_of_mem cs pub b hp]
    constructor
    · exact Or.inl
    · rintro (h | rfl)
      · exact h
      · exact hp
  · rw [setComponent, if_neg hp, pubsOf, List.map_append, List.mem_append]
    rw [pubsOf]
    simp

theorem enabledFor_setComponent (cs : List PriceComponentState)
    (pub : Publisher) (b : Bool) (q : Publisher) :
    enabledFor (setComponent cs pub b) q
      = if q = pub then b else enabledFor cs q := by
  rw [setComponent]
  by_cases hp : pub ∈ pubsOf cs
  · rw [if_pos hp, enabledFor]
    rw [find?_map_pred _ _ _ (fun c => by
      by_cases hc : c.publisher_key = pub <;> simp [hc])]
    cases hfind : cs.find? (fun c => c.publisher_key == q) with
    | none =>
      by_cases hq : q = pub
      · subst hq
        exfalso
        obtain ⟨c, hc, hck⟩ := (mem_pubsOf_iff cs q).mp hp
        have : (cs.find? fun c => c.publisher_key == q).isSome := by
          rw [List.find?_isSome]
          exact ⟨c, hc, by simp [hck]⟩
        rw [hfind] at this
        cases this
      · rw [if_neg hq, enabledFor, hfind]
        rfl
    | some c =>
      have hck : c.publisher_key = q := by
        have := List.find?_some hfind
        simpa using this
      by_cases hq : q = pub
      · subst hq
        rw [if_pos rfl]
        simp [hck]
      · rw [if_neg hq, enabledFor, hfind]
        simp [hck, hq]
  · rw [if_neg hp, enabledFor, List.find?_append]
    by_cases hq : q = pub
    · subst hq
      have hnone : cs.find? (fun c => c.publisher_key == q) = none := by
        cases hfind : cs.find? (fun c => c.publisher_key == q) with
        | none => rfl
        | some c =>
          exfalso
          apply hp
          rw [mem_pubsOf_iff]
          refine ⟨c, List.mem_of_find?_eq_some hfind, ?_⟩
          have hpc := List.find?_some hfind
          simpa using hpc
      rw [hnone, if_pos rfl]
      simp [List.find?]
    · have hnone : List.find? (fun c => c.publisher_key == q)
          ([⟨pub, b⟩] : List PriceComponentState) = none := by
        simp [List.find?, show (pub == q) = false from
          beq_eq_false_iff_ne.mpr (Ne.symm hq)]
      rw [hnone, Option.or_none, if_neg hq, enabledFor]

theorem enabledFor_applyToggles (ts : List (Publisher × Bool)) :
    ∀ (cs : List PriceComponentState) (q : Publisher),
      enabledFor (applyToggles cs ts) q
        = match ts.reverse.find? (fun t => t.1 == q) with
          | some t => t.2
          | none => enabledFor cs q := by
  induction ts with
  | nil => intro cs q; rfl
  | cons t ts ih =>
    intro cs q
    have hstep : applyToggles cs (t :: ts)
        = applyToggles (setComponent cs t.1 t.2) ts := rfl
    rw [hstep, ih, List.reverse_cons, List.find?_append]
    cases hfind : ts.reverse.find? (fun t => t.1 == q) with
    | some u => simp
    | none =>
      by_cases hq : t.1 = q
      · rw [show List.find? (fun u => u.1 == q) [t] = some t by
          simp [List.find?, hq]]
        simp [enabledFor_setComponent, hq]
      · rw [show List.find? (fun u => u.1 == q) [t] = none by
          rw [List.find?, show (t.1 == q) = false from
            beq_eq_false_iff_ne.mpr hq]
          rfl]
        simp [enabledFor_setComponent, Ne.symm hq]

theorem mem_pubsOf_applyToggles (ts : List (Publisher × Bool)) :
    ∀ (cs : List PriceComponentState) (q : Publisher),
      q ∈ pubsOf (applyToggles cs ts) ↔
        q ∈ pubsOf cs ∨ ∃ t ∈ ts, t.1 = q := by
  induction ts with
  | nil => intro cs q; simp [applyToggles]
  | cons t ts ih =>
    intro cs q
    have hstep : applyToggles cs (t :: ts)
        = applyToggles (setComponent cs t.1 t.2) ts := rfl
    rw [hstep, ih, mem_pubsOf_setComponent]
    constructor
    · rintro ((h | rfl) | ⟨u, hu, rfl⟩)
      · exact Or.inl h
      · exact Or.inr ⟨t, List.mem_cons_self _ _, rfl⟩
      · exact Or.inr ⟨u, List.mem_cons_of_mem _ hu, rfl⟩
    · rintro (h | ⟨u, hu, rfl⟩)
      · exact Or.inl (Or.inl h)
      · rcases List.mem_cons.mp hu with rfl | hu2
        · exact Or.inl (Or.inr rfl)
        · exact Or.inr ⟨u, hu2, rfl⟩


/-- The symbol an instruction addresses (`none` for mapping
instructions). -/
def instrSymbol : Instruction → Option Symbol
  | .create_mapping => none
  | .create_product s _ => some s
  | .update_product s _ => some s
  | .toggle_publisher s _ _ => some s
  | .set_minimum_publishers s _ => some s

theorem apply_plan_append (g : AccountGraph) (l1 l2 : List Instruction) :
    apply_plan g (l1 ++ l2) = apply_plan (apply_plan g l1) l2 :=
  List.foldl_append _ _ l1 l2

theorem findProduct_symbol {g : AccountGraph} {s : Symbol} {p : ProductState}
    (h : findProduct g s = some p) : p.symbol = s := by
  have := List.find?_some h
  simpa using this

theorem findProduct_mem {g : AccountGraph} {s : Symbol} {p : ProductState}
    (h : findProduct g s = some p) : p ∈ g.products :=
  List.mem_of_find?_eq_some h

theorem findProduct_create_product_self (g : AccountGraph) (s : Symbol)
    (md : List (String × String)) :
    findProduct (apply_instruction g (.create_product s md)) s
      = (findProduct g s).or (some ⟨s, md, [], 0⟩) := by
  simp only [apply_instruction, findProduct]
  rw [List.find?_append]
  congr 1
  simp [List.find?]

theorem findProduct_create_product_other (g : AccountGraph) (s : Symbol)
    (md : List (String × String)) (s' : Symbol) (h : s ≠ s') :
    findProduct (apply_instruction g (.create_product s md)) s'
      = findProduct g s' := by
  simp only [apply_instruction, findProduct]
  rw [List.find?_append]
  rw [show List.find? (fun p => p.symbol == s')
      ([⟨s, md, [], 0⟩] : List ProductState) = none by
    simp [List.find?, show (s == s') = false from beq_eq_false_iff_ne.mpr h]]
  rw [Option.or_none]

theorem findProduct_update_product (g : AccountGraph) (s : Symbol)
    (md : List (String × String)) (s' : Symbol) :
    findProduct (apply_instruction g (.update_product s md)) s'
      = (findProduct g s').map fun p =>
          if p.symbol = s then { p with metadata := md } else p := by
  rw [apply_instruction, findProduct, findProduct]
  exact find?_map_pred _ _ _ fun p => by
    by_cases h : p.symbol = s <;> simp [h]

theorem findProduct_toggle_publisher (g : AccountGraph) (s : Symbol)
    (pub : Publisher) (st : Bool) (s' : Symbol) :
    findProduct (apply_instruction g (.toggle_publisher s pub st)) s'
      = (findProduct g s').map fun p =>
          if p.symbol = s then
            { p with components := setComponent p.components pub st }
          else p := by
  rw [apply_instruction, findProduct, findProduct]
  exact find?_map_pred _ _ _ fun p => by
    by_cases h : p.symbol = s <;> simp [h]

theorem findProduct_set_minimum_publishers (g : AccountGraph) (s : Symbol)
    (n : Nat) (s' : Symbol) :
    findProduct (apply_instruction g (.set_minimum_publishers s n)) s'
      = (findProduct g s').map fun p =>
          if p.symbol = s then { p with minimum_publishers := n } else p := by
  rw [apply_instruction, findProduct, findProduct]
  exact find?_map_pred _ _ _ fun p => by
    by_cases h : p.symbol = s <;> simp [h]

theorem findProduct_apply_other (g : AccountGraph) (i : Instruction)
    (s : Symbol) (h : instrSymbol i ≠ some s) :
    findProduct (apply_instruction g i) s = findProduct g s := by
  cases i with
  | create_mapping => rfl
  | create_product s' md =>
    exact findProduct_create_product_other g s' md s
      (by intro he; exact h (by rw [instrSymbol, he]))
  | update_product s' md =>
    rw [findProduct_update_product]
    cases hf : findProduct g s with
    | none => rfl
    | some p =>
      have hps : p.symbol = s := findProduct_symbol hf
      have hne : ¬ p.symbol = s' := by
        rw [hps]; intro he; exact h (by rw [instrSymbol, he])
      simp [hne]
  | toggle_publisher s' pub st =>
    rw [findProduct_toggle_publisher]
    cases hf : findProduct g s with
    | none => rfl
    | some p =>
      have hps : p.symbol = s := findProduct_symbol hf
      have hne : ¬ p.symbol = s' := by
        rw [hps]; intro he; exact h (by rw [instrSymbol, he])
      simp [hne]
  | set_minimum_publishers s' n =>
    rw [findProduct_set_minimum_publishers]
    cases hf : findProduct g s with
    | none => rfl
    | some p =>
      have hps : p.symbol = s := findProduct_symbol hf
      have hne : ¬ p.symbol = s' := by
        rw [hps]; intro he; exact h (by rw [instrSymbol, he])
      simp [hne]

theorem findProduct_apply_plan_other (l : List Instruction) :
    ∀ (g : AccountGraph) (s : Symbol),
      (∀ i ∈ l, instrSymbol i ≠ some s) →
      findProduct (apply_plan g l) s = findProduct g s := by
  induction l with
  | nil => intro g s _; rfl
  | cons i l ih =>
    intro g s h
    have hstep : apply_plan g (i :: l) = apply_plan (apply_instruction g i) l :=
      rfl
    rw [hstep, ih _ s fun j hj => h j (List.mem_cons_of_mem _ hj)]
    exact findProduct_apply_other g i s (h i (List.mem_cons_self _ _))

theorem findProduct_apply_plan_congr (l : List Instruction) :
    ∀ (gA gB : AccountGraph) (s : Symbol),
      (∀ i ∈ l, instrSymbol i = some s) →
      findProduct gA s = findProduct gB s →
      findProduct (apply_plan gA l) s = findProduct (apply_plan gB l) s := by
  induction l with
  | nil => intro gA gB s _ hagree; exact hagree
  | cons i l ih =>
    intro gA gB s h hagree
    have hstep : ∀ g, apply_plan g (i :: l) = apply_plan (apply_instruction g i) l :=
      fun g => rfl
    rw [hstep, hstep]
    apply ih _ _ s fun j hj => h j (List.mem_cons_of_mem _ hj)
    have hi := h i (List.mem_cons_self _ _)
    cases i with
    | create_mapping => cases hi
    | create_product s' md =>
      have hs : s' = s := by simpa [instrSymbol] using hi
      subst hs
      rw [findProduct_create_product_self, findProduct_create_product_self,
        hagree]
    | update_product s' md =>
      have hs : s' = s := by simpa [instrSymbol] using hi
      subst hs
      rw [findProduct_update_product, findProduct_update_product, hagree]
    | toggle_publisher s' pub st =>
      have hs : s' = s := by simpa [instrSymbol] using hi
      subst hs
      rw [findProduct_toggle_publisher, findProduct_toggle_publisher, hagree]
    | set_minimum_publishers s' n =>
      have hs : s' = s := by simpa [instrSymbol] using hi
      subst hs
      rw [findProduct_set_minimum_publishers,
        findProduct_set_minimum_publishers, hagree]


theorem productPhaseFor_symbols (g : AccountGraph) (rp : ReferenceProduct) :
    ∀ i ∈ productPhaseFor g rp, instrSymbol i = some rp.symbol := by
  intro i hi
  rw [productPhaseFor] at hi
  cases hf : findProduct g rp.symbol with
  | none =>
    simp only [hf] at hi
    rcases List.mem_singleton.mp hi with rfl
    rfl
  | some p =>
    simp only [hf] at hi
    by_cases hm : p.metadata = rp.metadata
    · rw [if_pos hm] at hi
      cases hi
    · rw [if_neg hm] at hi
      rcases List.mem_singleton.mp hi with rfl
      rfl

theorem pricePhaseFor_symbols (g : AccountGraph) (r : ReferenceConfig)
    (rp : ReferenceProduct) :
    ∀ i ∈ pricePhaseFor g r rp, instrSymbol i = some rp.symbol := by
  intro i hi
  rw [pricePhaseFor] at hi
  rcases List.mem_append.mp hi with hl | hr
  · obtain ⟨t, _, rfl⟩ := List.mem_map.mp hl
    rfl
  · cases hlook : r.minimum_publishers.lookup rp.symbol with
    | none => simp only [hlook] at hr; cases hr
    | some n =>
      simp only [hlook] at hr
      by_cases hn : n = ((findProduct g rp.symbol).map
          fun p => p.minimum_publishers).getD 0
      · rw [if_pos hn] at hr
        cases hr
      · rw [if_neg hn] at hr
        rcases List.mem_singleton.mp hr with rfl
        rfl

theorem findProduct_apply_flatMap (rps : List ReferenceProduct)
    (F : ReferenceProduct → List Instruction)
    (hF : ∀ rp, ∀ i ∈ F rp, instrSymbol i = some rp.symbol)
    (hnodup : (rps.map fun rp => rp.symbol).Nodup)
    (rp : ReferenceProduct) (hmem : rp ∈ rps) (g : AccountGraph) :
    findProduct (apply_plan g (rps.flatMap F)) rp.symbol
      = findProduct (apply_plan g (F rp)) rp.symbol := by
  obtain ⟨l1, l2, rfl⟩ := List.append_of_mem hmem
  have hm1 : (l1.map fun rp => rp.symbol).Nodup ∧
      ((rp :: l2).map fun rp => rp.symbol).Nodup ∧
      ∀ a ∈ l1.map (fun rp => rp.symbol),
        a ∉ (rp :: l2).map fun rp => rp.symbol := by
    rw [List.map_append] at hnodup
    rw [List.nodup_append] at hnodup
    exact ⟨hnodup.1, hnodup.2.1, hnodup.2.2⟩
  have hs1 : ∀ rp' ∈ l1, rp'.symbol ≠ rp.symbol := by
    intro rp' h1 he
    exact hm1.2.2 rp'.symbol (List.mem_map_of_mem _ h1)
      (he ▸ List.mem_cons_self _ _)
  have hs2 : ∀ rp' ∈ l2, rp'.symbol ≠ rp.symbol := by
    intro rp' h2 he
    have := hm1.2.1
    rw [List.map_cons, List.nodup_cons] at this
    exact this.1 (he ▸ List.mem_map_of_mem _ h2)
  rw [List.flatMap_append, List.flatMap_cons]
  rw [apply_plan_append, apply_plan_append]
  have hother1 : findProduct (apply_plan g (l1.flatMap F)) rp.symbol
      = findProduct g rp.symbol := by
    apply findProduct_apply_plan_other
    intro i hi
    obtain ⟨rp', hrp', hif⟩ := List.mem_flatMap.mp hi
    rw [hF rp' i hif]
    intro he
    exact hs1 rp' hrp' (by injection he)
  have hchunk : findProduct
      (apply_plan (apply_plan g (l1.flatMap F)) (F rp)) rp.symbol
      = findProduct (apply_plan g (F rp)) rp.symbol :=
    findProduct_apply_plan_congr (F rp) _ _ _ (hF rp) hother1
  have hother2 : ∀ g' : AccountGraph,
      findProduct (apply_plan g' (l2.flatMap F)) rp.symbol
        = findProduct g' rp.symbol := by
    intro g'
    apply findProduct_apply_plan_other
    intro i hi
    obtain ⟨rp', hrp', hif⟩ := List.mem_flatMap.mp hi
    rw [hF rp' i hif]
    intro he
    exact hs2 rp' hrp' (by injection he)
  rw [hother2, hchunk]


theorem findProduct_apply_toggle_list (s : Symbol) (ts : List (Publisher × Bool)) :
    ∀ (g : AccountGraph) (pm : ProductState), findProduct g s = some pm →
      findProduct
          (apply_plan g (ts.map fun t => Instruction.toggle_publisher s t.1 t.2))
          s
        = some { pm with components := applyToggles pm.components ts } := by
  induction ts with
  | nil =>
    intro g pm h
    rw [show applyToggles pm.components [] = pm.components from rfl]
    exact h
  | cons t ts ih =>
    intro g pm h
    rw [List.map_cons]
    have h1 : findProduct (apply_instruction g (.toggle_publisher s t.1 t.2)) s
        = some { pm with components := setComponent pm.components t.1 t.2 } := by
      rw [findProduct_toggle_publisher, h]
      simp [findProduct_symbol h]
    exact ih _ _ h1

theorem findProduct_apply_min (g : AccountGraph) (s : Symbol) (n : Nat)
    (pm : ProductState) (h : findProduct g s = some pm) :
    findProduct (apply_instruction g (.set_minimum_publishers s n)) s
      = some { pm with minimum_publishers := n } := by
  rw [findProduct_set_minimum_publishers, h]
  simp [findProduct_symbol h]

theorem findProduct_after_product_phase (g : AccountGraph)
    (rp : ReferenceProduct) :
    ∃ pm, findProduct (apply_plan g (productPhaseFor g rp)) rp.symbol = some pm ∧
      pm.metadata = rp.metadata ∧
      pm.components
        = ((findProduct g rp.symbol).map fun p => p.components).getD [] ∧
      pm.minimum_publishers
        = ((findProduct g rp.symbol).map fun p => p.minimum_publishers).getD 0 := by
  cases hf : findProduct g rp.symbol with
  | none =>
    refine ⟨⟨rp.symbol, rp.metadata, [], 0⟩, ?_, rfl, rfl, rfl⟩
    rw [show productPhaseFor g rp
        = [.create_product rp.symbol rp.metadata] by
      rw [productPhaseFor]; simp only [hf]]
    rw [show apply_plan g [.create_product rp.symbol rp.metadata]
        = apply_instruction g (.create_product rp.symbol rp.metadata) from rfl]
    rw [findProduct_create_product_self, hf]
    rfl
  | some p =>
    by_cases hm : p.metadata = rp.metadata
    · refine ⟨p, ?_, hm, rfl, rfl⟩
      rw [show productPhaseFor g rp = [] by
        rw [productPhaseFor]; simp only [hf]; rw [if_pos hm]]
      exact hf
    · refine ⟨{ p with metadata := rp.metadata }, ?_, rfl, rfl, rfl⟩
      rw [show productPhaseFor g rp
          = [.update_product rp.symbol rp.metadata] by
        rw [productPhaseFor]; simp only [hf]; rw [if_neg hm]]
      rw [show apply_plan g [.update_product rp.symbol rp.metadata]
          = apply_instruction g (.update_product rp.symbol rp.metadata) from rfl]
      rw [findProduct_update_product, hf]
      simp [findProduct_symbol hf]

theorem findProduct_after_price_phase (g : AccountGraph) (r : ReferenceConfig)
    (rp : ReferenceProduct) (gX : AccountGraph) (pm : ProductState)
    (hX : findProduct gX rp.symbol = some pm)
    (hc : pm.components
      = ((findProduct g rp.symbol).map fun p => p.components).getD [])
    (hmin : pm.minimum_publishers
      = ((findProduct g rp.symbol).map fun p => p.minimum_publishers).getD 0) :
    ∃ pf, findProduct (apply_plan gX (pricePhaseFor g r rp)) rp.symbol = some pf ∧
      pf.metadata = pm.metadata ∧
      pf.components = applyToggles pm.components
        (toggleList pm.components ((r.permissions.lookup rp.symbol).getD [])) ∧
      ∀ n, r.minimum_publishers.lookup rp.symbol = some n →
        pf.minimum_publishers = n := by
  have hphase : pricePhaseFor g r rp
      = ((toggleList pm.components
            ((r.permissions.lookup rp.symbol).getD [])).map fun t =>
          Instruction.toggle_publisher rp.symbol t.1 t.2) ++
        match r.minimum_publishers.lookup rp.symbol with
        | some n =>
          if n = pm.minimum_publishers then []
          else [.set_minimum_publishers rp.symbol n]
        | none => [] := by
    rw [pricePhaseFor, ← hc, ← hmin]
  rw [hphase, apply_plan_append]
  have htog := findProduct_apply_toggle_list rp.symbol
    (toggleList pm.components ((r.permissions.lookup rp.symbol).getD []))
    gX pm hX
  cases hlook : r.minimum_publishers.lookup rp.symbol with
  | none =>
    simp only [hlook]
    exact ⟨_, htog, rfl, rfl, fun n h => by cases h⟩
  | some n =>
    simp only [hlook]
    by_cases hn : n = pm.minimum_publishers
    · rw [if_pos hn]
      refine ⟨_, htog, rfl, rfl, fun n' h => ?_⟩
      have : n = n' := by injection h
      rw [← this, hn]
    · rw [if_neg hn]
      rw [show ∀ G : AccountGraph,
          apply_plan G [Instruction.set_minimum_publishers rp.symbol n]
            = apply_instruction G (.set_minimum_publishers rp.symbol n)
        from fun G => rfl]
      refine ⟨_, findProduct_apply_min _ _ n _ htog, rfl, rfl, fun n' h => ?_⟩
      exact Option.some.inj h


/-- `find?` returns the unique element satisfying the predicate. -/
theorem find?_eq_some_of_unique' {α : Type} {p : α → Bool} {a : α} :
    ∀ {l : List α}, a ∈ l → p a = true → (∀ b ∈ l, p b = true → b = a) →
      l.find? p = some a := by
  intro l
  induction l with
  | nil => intro h; cases h
  | cons b t ih =>
    intro hl hp hu
    by_cases hb : p b = true
    · rw [List.find?_cons_of_pos _ hb, hu b (List.mem_cons_self b t) hb]
    · rw [List.find?_cons_of_neg _ hb]
      have ha : a ∈ t := by
        cases List.mem_cons.mp hl with
        | inl h => exact absurd (h ▸ hp) hb
        | inr h => exact h
      exact ih ha hp (fun c hc hpc => hu c (List.mem_cons_of_mem _ hc) hpc)

theorem toggleList_mem (comps : List PriceComponentState)
    (allowed : List Publisher) (t : Publisher × Bool) :
    t ∈ toggleList comps allowed ↔
      t.1 ∈ publishersToSync comps allowed ∧
      enabledFor comps t.1 ≠ decide (t.1 ∈ allowed) ∧
      t.2 = decide (t.1 ∈ allowed) := by
  rw [toggleList, List.mem_filterMap]
  constructor
  · rintro ⟨pub, hmem, hf⟩
    by_cases hcond : enabledFor comps pub = decide (pub ∈ allowed)
    · rw [if_pos hcond] at hf
      cases hf
    · rw [if_neg hcond] at hf
      have ht : t = (pub, decide (pub ∈ allowed)) := by
        injection hf with h2
        exact h2.symm
      subst ht
      exact ⟨hmem, hcond, rfl⟩
  · rintro ⟨hmem, hcond, ht2⟩
    refine ⟨t.1, hmem, ?_⟩
    rw [if_neg hcond]
    rw [← ht2]

theorem publishersToSync_nodup (comps : List PriceComponentState)
    (allowed : List Publisher) (hc : (pubsOf comps).Nodup)
    (ha : allowed.Nodup) : (publishersToSync comps allowed).Nodup := by
  rw [publishersToSync, List.nodup_append]
  refine ⟨hc, ha.filter _, ?_⟩
  intro q hq hq2
  have := (List.mem_filter.mp hq2).2
  simp at this
  exact this hq

theorem map_fst_filterMap_sublist {α β : Type}
    (f : α → Option (α × β)) (hf : ∀ a b, f a = some b → b.1 = a) :
    ∀ l : List α, ((l.filterMap f).map Prod.fst).Sublist l := by
  intro l
  induction l with
  | nil => exact List.Sublist.refl []
  | cons a t ih =>
    rw [List.filterMap_cons]
    cases hfa : f a with
    | none => exact ih.cons a
    | some b =>
      rw [List.map_cons, hf a b hfa]
      exact ih.cons₂ a

theorem toggleList_fst_nodup (comps : List PriceComponentState)
    (allowed : List Publisher) (hc : (pubsOf comps).Nodup)
    (ha : allowed.Nodup) :
    ((toggleList comps allowed).map Prod.fst).Nodup := by
  apply List.Sublist.nodup _ (publishersToSync_nodup comps allowed hc ha)
  rw [toggleList]
  apply map_fst_filterMap_sublist
  intro a b hab
  by_cases hcond : enabledFor comps a = decide (a ∈ allowed)
  · rw [if_pos hcond] at hab
    cases hab
  · rw [if_neg hcond] at hab
    injection hab with h2
    rw [← h2]

/-- After applying the emitted toggles, every publisher that the next
reconciliation pass would examine already carries the desired flag. -/
theorem enabledFor_after_sync (comps : List PriceComponentState)
    (allowed : List Publisher) (hc : (pubsOf comps).Nodup)
    (ha : allowed.Nodup) (q : Publisher)
    (hq : q ∈ publishersToSync
      (applyToggles comps (toggleList comps allowed)) allowed) :
    enabledFor (applyToggles comps (toggleList comps allowed)) q
      = decide (q ∈ allowed) := by
  have hq0 : q ∈ publishersToSync comps allowed := by
    rcases List.mem_append.mp hq with hl | hr
    · rcases (mem_pubsOf_applyToggles _ _ _).mp hl with h0 | ⟨t, ht, rfl⟩
      · exact List.mem_append_left _ h0
      · exact ((toggleList_mem comps allowed t).mp ht).1
    · have hqa : q ∈ allowed := (List.mem_filter.mp hr).1
      have hqn : q ∉ pubsOf (applyToggles comps (toggleList comps allowed)) := by
        have := (List.mem_filter.mp hr).2
        simpa using this
      have hqn0 : q ∉ pubsOf comps := fun h =>
        hqn ((mem_pubsOf_applyToggles _ _ _).mpr (Or.inl h))
      exact List.mem_append_right _ (List.mem_filter.mpr ⟨hqa, by simpa using hqn0⟩)
  rw [enabledFor_applyToggles]
  by_cases hcond : enabledFor comps q = decide (q ∈ allowed)
  · have hfind : (toggleList comps allowed).reverse.find?
        (fun t => t.1 == q) = none := by
      rw [List.find?_eq_none]
      intro t ht htq
      have ht' : t ∈ toggleList comps allowed := List.mem_reverse.mp ht
      have htq' : t.1 = q := by simpa using htq
      exact ((toggleList_mem comps allowed t).mp ht').2.1 (htq' ▸ hcond)
    rw [hfind]
    exact hcond
  · have hmem : (q, decide (q ∈ allowed)) ∈ toggleList comps allowed :=
      (toggleList_mem comps allowed _).mpr ⟨hq0, hcond, rfl⟩
    have hnodup := toggleList_fst_nodup comps allowed hc ha
    have hfind : (toggleList comps allowed).reverse.find?
        (fun t => t.1 == q) = some (q, decide (q ∈ allowed)) := by
      apply find?_eq_some_of_unique'
      · exact List.mem_reverse.mpr hmem
      · simp
      · intro t ht htq
        have ht' : t ∈ toggleList comps allowed := List.mem_reverse.mp ht
        have htq' : t.1 = q := by simpa using htq
        exact List.inj_on_of_nodup_map hnodup ht' hmem (by rw [htq'])
    rw [hfind]


/-- Per-symbol state after one full reconciliation plan has been applied:
the product exists, carries the reference metadata, its components are the
initial components with the emitted toggles folded in, and its
minimum-publishers threshold matches the reference when one is given. -/
theorem findProduct_after_reconcile (g : AccountGraph) (r : ReferenceConfig)
    (hr : (r.products.map fun rp => rp.symbol).Nodup)
    (rp : ReferenceProduct) (hmem : rp ∈ r.products) :
    ∃ pf, findProduct (apply_plan g (reconcile g r)) rp.symbol = some pf ∧
      pf.metadata = rp.metadata ∧
      pf.components = applyToggles
        (((findProduct g rp.symbol).map fun p => p.components).getD [])
        (toggleList
          (((findProduct g rp.symbol).map fun p => p.components).getD [])
          ((r.permissions.lookup rp.symbol).getD [])) ∧
      ∀ n, r.minimum_publishers.lookup rp.symbol = some n →
        pf.minimum_publishers = n := by
  rw [reconcile, apply_plan_append, apply_plan_append]
  have hg1 : findProduct (apply_plan g (mappingPhase g r)) rp.symbol
      = findProduct g rp.symbol := by
    apply findProduct_apply_plan_other
    intro i hi
    rw [mappingPhase] at hi
    rw [List.eq_of_mem_replicate hi]
    intro h
    cases h
  have hp2 : findProduct
      (apply_plan (apply_plan g (mappingPhase g r)) (productPhase g r))
      rp.symbol
      = findProduct (apply_plan g (productPhaseFor g rp)) rp.symbol := by
    rw [productPhase, findProduct_apply_flatMap r.products (productPhaseFor g)
      (productPhaseFor_symbols g) hr rp hmem]
    exact findProduct_apply_plan_congr _ _ _ _ (productPhaseFor_symbols g rp)
      hg1
  obtain ⟨pm, hpm, hmmd, hmc, hmmin⟩ := findProduct_after_product_phase g rp
  have hp3 : findProduct
      (apply_plan (apply_plan (apply_plan g (mappingPhase g r))
        (productPhase g r)) (pricePhase g r)) rp.symbol
      = findProduct
          (apply_plan (apply_plan g (productPhaseFor g rp))
            (pricePhaseFor g r rp)) rp.symbol := by
    rw [pricePhase, findProduct_apply_flatMap r.products (pricePhaseFor g r)
      (pricePhaseFor_symbols g r) hr rp hmem]
    apply findProduct_apply_plan_congr _ _ _ _ (pricePhaseFor_symbols g r rp)
    rw [hp2, hpm]
  rw [hp3]
  obtain ⟨pf, hpf, hfmd, hfc, hfmin⟩ :=
    findProduct_after_price_phase g r rp _ pm hpm hmc hmmin
  exact ⟨pf, hpf, by rw [hfmd, hmmd], by rw [hfc, hmc], hfmin⟩

def isCreateMapping : Instruction → Bool
  | .create_mapping => true
  | _ => false

def isCreateProduct : Instruction → Bool
  | .create_product _ _ => true
  | _ => false

theorem mapping_count_apply_plan (l : List Instruction) :
    ∀ g : AccountGraph, (apply_plan g l).mapping_count
      = g.mapping_count + l.countP isCreateMapping := by
  induction l with
  | nil => intro g; rfl
  | cons i l ih =>
    intro g
    have hstep : apply_plan g (i :: l) = apply_plan (apply_instruction g i) l :=
      rfl
    rw [hstep, ih, List.countP_cons]
    cases i <;> simp [apply_instruction, isCreateMapping] <;> omega

theorem products_length_apply_plan (l : List Instruction) :
    ∀ g : AccountGraph, (apply_plan g l).products.length
      = g.products.length + l.countP isCreateProduct := by
  induction l with
  | nil => intro g; rfl
  | cons i l ih =>
    intro g
    have hstep : apply_plan g (i :: l) = apply_plan (apply_instruction g i) l :=
      rfl
    rw [hstep, ih, List.countP_cons]
    cases i <;> simp [apply_instruction, isCreateProduct] <;> omega

theorem countP_flatMap {α : Type} (l : List α) (F : α → List Instruction)
    (p : Instruction → Bool) :
    (l.flatMap F).countP p = (l.map fun a => (F a).countP p).sum := by
  induction l with
  | nil => rfl
  | cons a t ih =>
    rw [List.flatMap_cons, List.countP_append, List.map_cons, List.sum_cons, ih]

theorem countP_replicate (n : Nat) (i : Instruction) (p : Instruction → Bool) :
    (List.replicate n i).countP p = if p i then n else 0 := by
  induction n with
  | zero => simp
  | succ m ih =>
    rw [List.replicate_succ, List.countP_cons, ih]
    by_cases hp : p i = true
    · simp [hp]
    · simp [hp]

theorem sum_map_ite {α : Type} (l : List α) (q : α → Bool) :
    (l.map fun a => if q a then 1 else 0).sum = (l.filter q).length := by
  induction l with
  | nil => rfl
  | cons a t ih =>
    rw [List.map_cons, List.sum_cons, ih, List.filter_cons]
    by_cases hq : q a = true
    · simp [hq]
      omega
    · simp [hq]

theorem pricePhaseFor_no_create (g : AccountGraph) (r : ReferenceConfig)
    (rp : ReferenceProduct) :
    ∀ i ∈ pricePhaseFor g r rp, isCreateProduct i = false := by
  intro i hi
  rw [pricePhaseFor] at hi
  rcases List.mem_append.mp hi with hl | hr
  · obtain ⟨t, _, rfl⟩ := List.mem_map.mp hl
    rfl
  · cases hlook : r.minimum_publishers.lookup rp.symbol with
    | none => simp only [hlook] at hr; cases hr
    | some n =>
      simp only [hlook] at hr
      by_cases hn : n = ((findProduct g rp.symbol).map
          fun p => p.minimum_publishers).getD 0
      · rw [if_pos hn] at hr
        cases hr
      · rw [if_neg hn] at hr
        rcases List.mem_singleton.mp hr with rfl
        rfl

theorem productPhaseFor_countP_create (g : AccountGraph)
    (rp : ReferenceProduct) :
    (productPhaseFor g rp).countP isCreateProduct
      = if (findProduct g rp.symbol).isNone then 1 else 0 := by
  rw [productPhaseFor]
  cases hf : findProduct g rp.symbol with
  | none => rfl
  | some p =>
    simp only
    by_cases hm : p.metadata = rp.metadata
    · rw [if_pos hm]
      rfl
    · rw [if_neg hm]
      rfl


theorem lookup_mem {β : Type} (l : List (String × β)) (a : String) (b : β)
    (h : l.lookup a = some b) : (a, b) ∈ l := by
  induction l with
  | nil => cases h
  | cons kv t ih =>
    rw [List.lookup] at h
    by_cases hk : (a == kv.1) = true
    · simp only [hk] at h
      have ha : a = kv.1 := by simpa using hk
      have hb : kv.2 = b := by injection h
      rw [ha, ← hb]
      exact List.mem_cons_self _ _
    · rw [Bool.not_eq_true] at hk
      simp only [hk] at h
      exact List.mem_cons_of_mem _ (ih h)

theorem isCreateMapping_eq_false_of_symbol (i : Instruction) (s : Symbol)
    (h : instrSymbol i = some s) : isCreateMapping i = false := by
  cases i with
  | create_mapping => cases h
  | create_product s' md => rfl
  | update_product s' md => rfl
  | toggle_publisher s' pub st => rfl
  | set_minimum_publishers s' n => rfl

theorem reconcile_countP_create_mapping (g : AccountGraph)
    (r : ReferenceConfig) :
    (reconcile g r).countP isCreateMapping = neededMappings g r := by
  rw [reconcile, List.countP_append, List.countP_append]
  have hM : (mappingPhase g r).countP isCreateMapping = neededMappings g r := by
    rw [mappingPhase, countP_replicate]
    rfl
  have hP : (productPhase g r).countP isCreateMapping = 0 := by
    rw [List.countP_eq_zero]
    intro i hi
    obtain ⟨rp, _, hif⟩ := List.mem_flatMap.mp hi
    simp [isCreateMapping_eq_false_of_symbol i rp.symbol
      (productPhaseFor_symbols g rp i hif)]
  have hQ : (pricePhase g r).countP isCreateMapping = 0 := by
    rw [List.countP_eq_zero]
    intro i hi
    obtain ⟨rp, _, hif⟩ := List.mem_flatMap.mp hi
    simp [isCreateMapping_eq_false_of_symbol i rp.symbol
      (pricePhaseFor_symbols g r rp i hif)]
  rw [hM, hP, hQ]
  omega

theorem reconcile_countP_create_product (g : AccountGraph)
    (r : ReferenceConfig) :
    (reconcile g r).countP isCreateProduct
      = (r.products.filter fun rp => (findProduct g rp.symbol).isNone).length := by
  rw [reconcile, List.countP_append, List.countP_append]
  have hM : (mappingPhase g r).countP isCreateProduct = 0 := by
    rw [mappingPhase, countP_replicate]
    rfl
  have hQ : (pricePhase g r).countP isCreateProduct = 0 := by
    rw [List.countP_eq_zero]
    intro i hi
    obtain ⟨rp, _, hif⟩ := List.mem_flatMap.mp hi
    simp [pricePhaseFor_no_create g r rp i hif]
  have hP : (productPhase g r).countP isCreateProduct
      = (r.products.filter fun rp => (findProduct g rp.symbol).isNone).length := by
    rw [productPhase, countP_flatMap]
    rw [List.map_congr_left fun rp _ => productPhaseFor_countP_create g rp]
    exact sum_map_ite r.products fun rp => (findProduct g rp.symbol).isNone
  rw [hM, hP, hQ]
  omega

theorem neededMappings_after_reconcile (g : AccountGraph)
    (r : ReferenceConfig)
    (hr : (r.products.map fun rp => rp.symbol).Nodup) :
    neededMappings (apply_plan g (reconcile g r)) r = 0 := by
  have hfilter : (r.products.filter fun rp =>
      (findProduct (apply_plan g (reconcile g r)) rp.symbol).isNone) = [] := by
    rw [List.filter_eq_nil_iff]
    intro rp hmem
    obtain ⟨pf, hpf, _, _, _⟩ := findProduct_after_reconcile g r hr rp hmem
    rw [hpf]
    intro h
    cases h
  rw [neededMappings, hfilter]
  have hlen : (apply_plan g (reconcile g r)).products.length
      = g.products.length +
        (r.products.filter fun rp => (findProduct g rp.symbol).isNone).length := by
    rw [products_length_apply_plan, reconcile_countP_create_product]
  have hmc : (apply_plan g (reconcile g r)).mapping_count
      = g.mapping_count + neededMappings g r := by
    rw [mapping_count_apply_plan, reconcile_countP_create_mapping]
  rw [hlen, hmc, neededMappings]
  simp only [List.length_nil, Nat.add_zero, MAPPING_ACCOUNT_PRODUCT_LIMIT]
  by_cases hcap : g.products.length +
      (r.products.filter fun rp => (findProduct g rp.symbol).isNone).length
      ≤ 640 * g.mapping_count
  · rw [if_pos hcap, if_pos (by omega)]
  · rw [if_neg hcap, if_pos (by omega)]


/-- C4 -/
theorem reconcile_idempotent (g : AccountGraph) (r : ReferenceConfig)
    (hr : (r.products.map fun rp => rp.symbol).Nodup)
    (hperm : ∀ pr ∈ r.permissions, pr.2.Nodup)
    (hcomps : ∀ p ∈ g.products, (pubsOf p.components).Nodup) :
    reconcile (apply_plan g (reconcile g r)) r = [] := by
  have h1 : mappingPhase (apply_plan g (reconcile g r)) r = [] := by
    rw [mappingPhase, neededMappings_after_reconcile g r hr]
    rfl
  have h2 : productPhase (apply_plan g (reconcile g r)) r = [] := by
    rw [productPhase, List.flatMap_eq_nil_iff]
    intro rp hmem
    obtain ⟨pf, hpf, hmd, _, _⟩ := findProduct_after_reconcile g r hr rp hmem
    rw [productPhaseFor]
    simp only [hpf]
    rw [if_pos hmd]
  have h3 : pricePhase (apply_plan g (reconcile g r)) r = [] := by
    rw [pricePhase, List.flatMap_eq_nil_iff]
    intro rp hmem
    obtain ⟨pf, hpf, hmd, hcomp, hmin⟩ :=
      findProduct_after_reconcile g r hr rp hmem
    have hc0 : (pubsOf
        (((findProduct g rp.symbol).map fun p => p.components).getD [])).Nodup := by
      cases hf : findProduct g rp.symbol with
      | none => exact List.nodup_nil
      | some p => exact hcomps p (findProduct_mem hf)
    have ha0 : ((r.permissions.lookup rp.symbol).getD []).Nodup := by
      cases hl : r.permissions.lookup rp.symbol with
      | none => exact List.nodup_nil
      | some pubs => exact hperm (rp.symbol, pubs) (lookup_mem _ _ _ hl)
    rw [pricePhaseFor]
    simp only [hpf, Option.map_some', Option.getD_some]
    have htl : toggleList pf.components
        ((r.permissions.lookup rp.symbol).getD []) = [] := by
      rw [toggleList, List.filterMap_eq_nil_iff]
      intro q hq
      have henabled : enabledFor pf.components q
          = decide (q ∈ (r.permissions.lookup rp.symbol).getD []) := by
        rw [hcomp]
        apply enabledFor_after_sync _ _ hc0 ha0
        rw [← hcomp]
        exact hq
      simp [henabled]
    rw [htl]
    simp only [List.map_nil, List.nil_append]
    cases hlook : r.minimum_publishers.lookup rp.symbol with
    | none => rfl
    | some n => simp [hmin n hlook]
  rw [reconcile, h1, h2, h3]
  rfl


/-- A small concrete account graph for exercising the reconciler. -/
def sampleGraph : AccountGraph :=
  ⟨1, [⟨"BTC/USD", [("symbol", "BTC/USD")], [⟨"pub1", true⟩], 1⟩]⟩

/-- A small concrete reference configuration for exercising the
reconciler. -/
def sampleConfig : ReferenceConfig :=
  ⟨[⟨"BTC/USD", [("symbol", "BTC/USD")]⟩, ⟨"ETH/USD", [("symbol", "ETH/USD")]⟩],
   [("BTC/USD", ["pub2"]), ("ETH/USD", ["pub1"])],
   [("BTC/USD", 3)]⟩

/-- C4 witness -/
theorem reconcile_idempotent_witness :
    reconcile (apply_plan sampleGraph (reconcile sampleGraph sampleConfig))
      sampleConfig = [] :=
  reconcile_idempotent sampleGraph sampleConfig (by decide) (by decide)
    (by decide)

end ProgramAdmin
